import Mathlib

/-!
# Verification of the invoicer's worklog aggregation and template engine

A shallow embedding of the invoicer program (files `worklog.rs`,
`invoice.rs`, `generate_tex.rs`, `invoicer.rs`) together with proofs about
it.  Modelling conventions:

* Rust strings are lists of characters (`Str`).
* `f32` quantities (hours, rates, amounts) are rationals.
* `chrono::NaiveDateTime` is an integer timestamp (seconds), bounded by
  the sentinel constants `dtMax` / `dtMin` standing for
  `NaiveDateTime::MAX` / `NaiveDateTime::MIN`; the exact numeric bounds
  are immaterial, only that every representable date lies between them.
* A Rust `HashSet`/`HashMap` is a list carrying the (unspecified)
  iteration order of the concrete container instance.
* A Rust panic (`assert!`) is `Option.none`; the file system seen by the
  template engine is a partial map from file names to lists of lines.
-/

namespace Invoicer

/-- Rust strings, modelled as lists of characters. -/
abbrev Str : Type := List Char

/-- Rust `char::is_whitespace`, restricted to the ASCII whitespace
characters relevant to this program. -/
def isWS (c : Char) : Bool :=
  c = ' ' || c = '\t' || c = '\n' || c = '\r'

/-- Rust `str::trim`: drop whitespace from both ends. -/
def trimStr (s : Str) : Str :=
  List.rdropWhile isWS (s.dropWhile isWS)

/-- Rust `str::starts_with`: `strStartsWith s pat` is true when `pat` is a
prefix of `s`. -/
def strStartsWith : Str → Str → Bool
  | _, [] => true
  | [], _ :: _ => false
  | c :: s, p :: ps => if c = p then strStartsWith s ps else false

/-- Whether `pat` occurs as a contiguous substring of `s`. -/
def containsSub (pat : Str) : Str → Bool
  | [] => pat.isEmpty
  | c :: rest => strStartsWith (c :: rest) pat || containsSub pat rest

/-- The scan of Rust `str::replace`, by structural recursion on a fuel
that bounds the string length (every step consumes at least one
character, so a fuel of the initial length is always enough). -/
def replaceAllAux (pat repl : Str) : Nat → Str → Str
  | _, [] => []
  | 0, s => s
  | fuel + 1, c :: rest =>
    if pat ≠ [] ∧ strStartsWith (c :: rest) pat = true then
      repl ++ replaceAllAux pat repl fuel ((c :: rest).drop pat.length)
    else
      c :: replaceAllAux pat repl fuel rest

/-- Rust `str::replace`: replace every occurrence of `pat` by `repl`,
scanning left to right.  (The program only calls this with nonempty
patterns; an empty pattern is left as a no-op here.) -/
def replaceAll (pat repl s : Str) : Str := replaceAllAux pat repl s.length s

/-- Rust `str::replacen` with count 1: replace only the first occurrence
of `pat` by `repl`. -/
def replaceFirst (pat repl : Str) : Str → Str
  | [] => []
  | c :: rest =>
    if pat ≠ [] ∧ strStartsWith (c :: rest) pat = true then
      repl ++ (c :: rest).drop pat.length
    else
      c :: replaceFirst pat repl rest

/-- Rust `RecipientTagInfo` (invoice.rs): one entry of a recipient's tag map. -/
structure RecipientTagInfo where
  is_default : Bool
  position_text : Str
deriving DecidableEq

/-- The literal `"[default]"` marker. -/
def defaultMarker : Str := "[default]".toList

/-- Rust `RecipientTagInfo::from` (invoice.rs:73-81): trim the raw value, set
`is_default` when the trimmed value starts with `"[default]"`, and take as
`position_text` the trimmed value with the first occurrence of
`"[default]"` removed (`value.replacen("[default]", "", 1)`). -/
def RecipientTagInfo.fromStr (value : Str) : RecipientTagInfo :=
  let v := trimStr value
  { is_default := strStartsWith v defaultMarker
    position_text := replaceFirst defaultMarker [] v }

/-- Rust `NaiveDateTime::MAX` as a timestamp: chrono's maximum representable
date (the numeric value is a faithful stand-in; only its role as an upper
bound of all representable dates matters). -/
def dtMax : Int := 8210266876799

/-- Rust `NaiveDateTime::MIN` as a timestamp: chrono's minimum representable
date. -/
def dtMin : Int := -8334632851200

/-- Rust's `as i64` cast of a float: truncation toward zero. -/
def ratTrunc (q : ℚ) : Int := if 0 ≤ q then ⌊q⌋ else -⌊-q⌋

/-- Rust `WorklogRecord` (worklog.rs): one logged time entry.  The `Start`
string is modelled by the timestamp it parses to; `tags` carries the
record's tag set in the (unspecified) iteration order of its `HashSet`. -/
structure WorklogRecord where
  tags : List Str
  start : Int
  hours : ℚ
  rate : Option ℚ
  message : Str
deriving DecidableEq

/-- Rust `WorklogRecord::begin_date` (worklog.rs:34-36): the parsed `Start`
timestamp. -/
def WorklogRecord.begin_date (r : WorklogRecord) : Int := r.start

/-- Rust `WorklogRecord::end_date` (worklog.rs:38-42):
`begin_date + Duration::seconds((60.0 * 60.0 * hours) as i64)`. -/
def WorklogRecord.end_date (r : WorklogRecord) : Int :=
  r.begin_date + ratTrunc (60 * 60 * r.hours)

/-- Rust `WorklogRecord::net` (worklog.rs:44-46):
`hours * rate.unwrap_or_default()`; for `f32` the `Default` value is 0. -/
def WorklogRecord.net (r : WorklogRecord) : ℚ := r.hours * r.rate.getD 0

/-- Rust `WorklogRecord::has_tag` (worklog.rs:55-60). -/
def WorklogRecord.has_tag (r : WorklogRecord) (t : Str) : Bool :=
  r.tags.contains t

/-- Rust `Worklog` (worklog.rs): records plus incrementally maintained
aggregates. -/
structure Worklog where
  begin_date : Int
  end_date : Int
  records : List WorklogRecord
  tags : Finset Str
  rate : ℚ

/-- Rust `Worklog::new` (worklog.rs:73-81): sentinel date range
`(DateTime::MAX, DateTime::MIN)`, no records, no tags, rate 100.0. -/
def Worklog.new : Worklog :=
  { begin_date := dtMax
    end_date := dtMin
    records := []
    tags := ∅
    rate := 100 }

/-- Rust `Worklog::add_record` (worklog.rs:129-135): min/max-fold the date
range, union the tags, append the record. -/
def Worklog.add_record (w : Worklog) (r : WorklogRecord) : Worklog :=
  { begin_date := min r.begin_date w.begin_date
    end_date := max r.end_date w.end_date
    records := w.records ++ [r]
    tags := w.tags ∪ r.tags.toFinset
    rate := w.rate }

/-- Rust `Worklog::set_rate` (worklog.rs:121-123). -/
def Worklog.set_rate (w : Worklog) (r : ℚ) : Worklog := { w with rate := r }

/-- A worklog built by a sequence of `add_record` calls starting from
`Worklog::new()` (the shape of `Worklog::from_csv`). -/
def Worklog.ofRecords (rs : List WorklogRecord) : Worklog :=
  rs.foldl Worklog.add_record Worklog.new

/-- Rust `Worklog::from_records_with_tag` (worklog.rs:105-115): start from
`Worklog::new()` and add exactly the records carrying the tag. -/
def Worklog.from_records_with_tag (w : Worklog) (tag : Str) : Worklog :=
  (w.records.filter (fun r => r.has_tag tag)).foldl Worklog.add_record Worklog.new

/-- Rust `Recipient` (invoice.rs): the fields relevant to aggregation.  The
tag map is a `HashMap`; it is modelled as the list of its entries in the
iteration order of the concrete map instance. -/
structure Recipient where
  name : Str
  default_rate : Option ℚ
  tags : List (Str × RecipientTagInfo)
deriving DecidableEq

/-- Rust `Recipient::default_tag_name` (invoice.rs:128-137): the first tag
flagged `is_default` in the map's iteration order. -/
def Recipient.default_tag_name (r : Recipient) : Option Str :=
  (r.tags.find? (fun p => p.2.is_default)).map (fun p => p.1)

/-- The key-update loop of `Invoice::add_worklog` (invoice.rs:316-322):
starting from the empty key, every tag of the record that is a key of the
recipient's tag map overwrites the key, so the last such tag in the
record's tag iteration order wins. -/
def groupKeyLoop (r : Recipient) : List Str → Str → Str
  | [], key => key
  | t :: ts, key =>
      groupKeyLoop r ts (if (List.lookup t r.tags).isSome then t else key)

/-- The grouping key assigned to a worklog record by
`Invoice::add_worklog` (invoice.rs:316-331): the tag-match loop, then the
recipient's default tag, then the record's own message. -/
def groupKey (r : Recipient) (rec : WorklogRecord) : Str :=
  if groupKeyLoop r rec.tags [] = [] then
    match r.default_tag_name with
    | some d => d
    | none => rec.message
  else groupKeyLoop r rec.tags []

/-- The last element of `ts` satisfying `p`, if any; used to
characterize the tag-match loop of `Invoice::add_worklog`. -/
def lastMatch (p : Str → Bool) : List Str → Option Str
  | [] => none
  | t :: ts => (lastMatch p ts).or (if p t then some t else none)

/-- Rust `InvoicePosition` (invoice.rs:440-446). -/
structure InvoicePosition where
  text : Str
  amount : ℚ
  price_per_item : ℚ
  unit : Str
deriving DecidableEq

/-- Rust `InvoicePosition::add_assign` (invoice.rs:448-461).  The
`assert!(self.unit == other.unit && self.text == other.text)` aborts the
process on failure; the abort is modelled as `none`. -/
def InvoicePosition.add_assign (p other : InvoicePosition) : Option InvoicePosition :=
  if p.unit = other.unit ∧ p.text = other.text then
    some { text := p.text
           amount := p.amount + other.amount
           price_per_item :=
             (p.amount * p.price_per_item + other.amount * other.price_per_item) /
               (p.amount + other.amount)
           unit := p.unit }
  else none

/-- Rust `InvoicePosition::from_worklog_record` (invoice.rs:466-473). -/
def InvoicePosition.from_worklog_record (w : WorklogRecord) (default_rate : ℚ) :
    InvoicePosition :=
  { text := w.message
    amount := w.hours
    price_per_item := w.rate.getD default_rate
    unit := "h".toList }

/-- Rust `InvoicePosition::net` (invoice.rs:475-477). -/
def InvoicePosition.net (p : InvoicePosition) : ℚ := p.amount * p.price_per_item

/-- The file system seen by the template engine: file name to lines, or
`none` when the file cannot be read. -/
abbrev FileSys := Str → Option (List Str)

/-- The literal `"\input{"` include marker of `TexTemplate::generate`. -/
def inputMarker : Str := "\\input\x7b".toList

/-- The literal `"%$"` token marker of
`TexTemplate::token_name_from_line`. -/
def tokenMarker : Str := "%$".toList

/-- The `format!("templates/{}.tex", filename)` path used by
`TexTemplate::inline_input`. -/
def templatePath (filename : Str) : Str :=
  "templates/".toList ++ filename ++ ".tex".toList

/-- Rust `TexTemplate::inline_input` (generate_tex.rs:93-106): emit the lines
of `templates/{filename}.tex` verbatim; a read failure is logged and
emits nothing. -/
def inline_input (fs : FileSys) (filename : Str) : List Str :=
  match fs (templatePath filename) with
  | some lines => lines
  | none => []

/-- Rust `TexTemplate::token_name_from_line` (generate_tex.rs:108-115): on a
trimmed line starting with `"%$"`, the token name is the trimmed line
with every `"%$"` removed and whitespace trimmed again. -/
def token_name_from_line (line : Str) : Option Str :=
  if strStartsWith (trimStr line) tokenMarker then
    some (trimStr (replaceAll tokenMarker [] (trimStr line)))
  else none

/-- One iteration of the `TexTemplate::generate` loop
(generate_tex.rs:72-87), producing the lines emitted for one template
line.  A registered callback is modelled by the list of lines it writes;
the registered token table is the entry list of the `HashMap`. -/
def processLine (fs : FileSys) (tokens : List (Str × List Str)) (line : Str) :
    List Str :=
  if strStartsWith line inputMarker then
    inline_input fs (replaceAll ("\x7d".toList) [] (replaceAll inputMarker [] line))
  else
    line ::
      (match token_name_from_line line with
       | some name => (List.lookup name tokens).getD []
       | none => [])

/-- Rust `TexTemplate::generate` (generate_tex.rs:69-90): process every line of
the template file in order; an unreadable template renders nothing. -/
def generate (fs : FileSys) (tokens : List (Str × List Str)) (filename : Str) :
    List Str :=
  match fs filename with
  | some lines => (lines.map (processLine fs tokens)).flatten
  | none => []

/-! ## Helper lemmas -/

/-- Folding `add_record` never changes the worklog's fallback rate. -/
lemma foldl_add_record_rate (l : List WorklogRecord) (w : Worklog) :
    (l.foldl Worklog.add_record w).rate = w.rate := by
  induction l generalizing w with
  | nil => rfl
  | cons r t ih => rw [List.foldl_cons, ih]; rfl

/-- The begin date of a worklog is a fold of `min` over the records'
begin dates. -/
lemma foldl_add_record_begin (l : List WorklogRecord) (w : Worklog) :
    (l.foldl Worklog.add_record w).begin_date =
      (l.map WorklogRecord.begin_date).foldl (fun acc x => min x acc) w.begin_date := by
  induction l generalizing w with
  | nil => rfl
  | cons r t ih => rw [List.foldl_cons, ih]; rfl

/-- The end date of a worklog is a fold of `max` over the records' end
dates. -/
lemma foldl_add_record_end (l : List WorklogRecord) (w : Worklog) :
    (l.foldl Worklog.add_record w).end_date =
      (l.map WorklogRecord.end_date).foldl (fun acc x => max x acc) w.end_date := by
  induction l generalizing w with
  | nil => rfl
  | cons r t ih => rw [List.foldl_cons, ih]; rfl

lemma foldlMin_le_init (l : List Int) (a : Int) :
    l.foldl (fun acc x => min x acc) a ≤ a := by
  induction l generalizing a with
  | nil => exact le_refl a
  | cons y t ih => exact le_trans (ih (min y a)) (min_le_right y a)

lemma foldlMin_le_mem (l : List Int) (a : Int) :
    ∀ x ∈ l, l.foldl (fun acc x => min x acc) a ≤ x := by
  induction l generalizing a with
  | nil => intro x hx; cases hx
  | cons y t ih =>
    intro x hx
    rcases List.mem_cons.mp hx with h | h
    · subst h
      exact le_trans (foldlMin_le_init t (min x a)) (min_le_left x a)
    · exact ih (min y a) x h

lemma foldlMin_mem_or (l : List Int) (a : Int) :
    l.foldl (fun acc x => min x acc) a = a ∨
      l.foldl (fun acc x => min x acc) a ∈ l := by
  induction l generalizing a with
  | nil => exact Or.inl rfl
  | cons y t ih =>
    rcases ih (min y a) with h | h
    · rcases min_choice y a with h2 | h2
      · right
        rw [List.foldl_cons]
        show t.foldl _ (min y a) ∈ y :: t
        rw [h, h2]
        exact List.mem_cons_self y t
      · left
        rw [List.foldl_cons]
        show t.foldl _ (min y a) = a
        rw [h, h2]
    · right
      exact List.mem_cons_of_mem y h

lemma foldlMax_init_le (l : List Int) (a : Int) :
    a ≤ l.foldl (fun acc x => max x acc) a := by
  induction l generalizing a with
  | nil => exact le_refl a
  | cons y t ih => exact le_trans (le_max_right y a) (ih (max y a))

lemma foldlMax_mem_le (l : List Int) (a : Int) :
    ∀ x ∈ l, x ≤ l.foldl (fun acc x => max x acc) a := by
  induction l generalizing a with
  | nil => intro x hx; cases hx
  | cons y t ih =>
    intro x hx
    rcases List.mem_cons.mp hx with h | h
    · subst h
      exact le_trans (le_max_left x a) (foldlMax_init_le t (max x a))
    · exact ih (max y a) x h

lemma foldlMax_mem_or (l : List Int) (a : Int) :
    l.foldl (fun acc x => max x acc) a = a ∨
      l.foldl (fun acc x => max x acc) a ∈ l := by
  induction l generalizing a with
  | nil => exact Or.inl rfl
  | cons y t ih =>
    rcases ih (max y a) with h | h
    · rcases max_choice y a with h2 | h2
      · right
        rw [List.foldl_cons]
        show t.foldl _ (max y a) ∈ y :: t
        rw [h, h2]
        exact List.mem_cons_self y t
      · left
        rw [List.foldl_cons]
        show t.foldl _ (max y a) = a
        rw [h, h2]
    · right
      exact List.mem_cons_of_mem y h

/-- A nonempty worklog's begin date is attained by a record and is a
lower bound of the records' begin dates. -/
lemma ofRecords_begin_spec (rs : List WorklogRecord)
    (hb : ∀ r ∈ rs, r.begin_date ≤ dtMax) (hne : rs ≠ []) :
    (∃ r ∈ rs, (Worklog.ofRecords rs).begin_date = r.begin_date) ∧
      ∀ r ∈ rs, (Worklog.ofRecords rs).begin_date ≤ r.begin_date := by
  have hfold : (Worklog.ofRecords rs).begin_date =
      (rs.map WorklogRecord.begin_date).foldl (fun acc x => min x acc) dtMax :=
    foldl_add_record_begin rs Worklog.new
  constructor
  · rcases foldlMin_mem_or (rs.map WorklogRecord.begin_date) dtMax with h | h
    · rcases List.exists_mem_of_ne_nil rs hne with ⟨r0, hr0⟩
      refine ⟨r0, hr0, le_antisymm ?_ ?_⟩
      · rw [hfold]
        exact foldlMin_le_mem _ _ _ (List.mem_map_of_mem _ hr0)
      · rw [hfold, h]
        exact hb r0 hr0
    · rcases List.mem_map.mp h with ⟨r0, hr0, heq⟩
      refine ⟨r0, hr0, ?_⟩
      rw [hfold]
      exact heq.symm
  · intro r hr
    rw [hfold]
    exact foldlMin_le_mem _ _ _ (List.mem_map_of_mem _ hr)

/-- A nonempty worklog's end date is attained by a record and is an
upper bound of the records' end dates. -/
lemma ofRecords_end_spec (rs : List WorklogRecord)
    (he : ∀ r ∈ rs, dtMin ≤ r.end_date) (hne : rs ≠ []) :
    (∃ r ∈ rs, (Worklog.ofRecords rs).end_date = r.end_date) ∧
      ∀ r ∈ rs, r.end_date ≤ (Worklog.ofRecords rs).end_date := by
  have hfold : (Worklog.ofRecords rs).end_date =
      (rs.map WorklogRecord.end_date).foldl (fun acc x => max x acc) dtMin :=
    foldl_add_record_end rs Worklog.new
  constructor
  · rcases foldlMax_mem_or (rs.map WorklogRecord.end_date) dtMin with h | h
    · rcases List.exists_mem_of_ne_nil rs hne with ⟨r0, hr0⟩
      refine ⟨r0, hr0, le_antisymm ?_ ?_⟩
      · rw [hfold, h]
        exact he r0 hr0
      · rw [hfold]
        exact foldlMax_mem_le _ _ _ (List.mem_map_of_mem _ hr0)
    · rcases List.mem_map.mp h with ⟨r0, hr0, heq⟩
      refine ⟨r0, hr0, ?_⟩
      rw [hfold]
      exact heq.symm
  · intro r hr
    rw [hfold]
    exact foldlMax_mem_le _ _ _ (List.mem_map_of_mem _ hr)

/-- The key-update loop computes the last tag of the list that is a key
of the recipient's tag map, defaulting to the initial key. -/
lemma groupKeyLoop_eq_lastMatch (r : Recipient) (ts : List Str) (key : Str) :
    groupKeyLoop r ts key =
      (lastMatch (fun t => (List.lookup t r.tags).isSome) ts).getD key := by
  induction ts generalizing key with
  | nil => rfl
  | cons t ts ih =>
    rw [groupKeyLoop, ih, lastMatch]
    cases hlm : lastMatch (fun t => (List.lookup t r.tags).isSome) ts with
    | some x => rfl
    | none =>
      cases hp : (List.lookup t r.tags).isSome with
      | true => simp only [hp, if_true, Option.none_or, Option.getD_some, Option.getD_none]
      | false => simp only [hp, Bool.false_eq_true, if_false, Option.none_or, Option.getD_none]

lemma lastMatch_eq_none_iff (p : Str → Bool) (ts : List Str) :
    lastMatch p ts = none ↔ ∀ t ∈ ts, p t = false := by
  induction ts with
  | nil => simp [lastMatch]
  | cons t ts ih =>
    constructor
    · intro h
      rw [lastMatch] at h
      rcases Option.or_eq_none.mp h with ⟨h1, h2⟩
      intro x hx
      rcases List.mem_cons.mp hx with hx | hx
      · subst hx
        by_contra hpx
        rw [Bool.not_eq_false] at hpx
        rw [if_pos hpx] at h2
        exact Option.some_ne_none x h2
      · exact ih.mp h1 x hx
    · intro h
      rw [lastMatch, Option.or_eq_none]
      refine ⟨ih.mpr fun x hx => h x (List.mem_cons_of_mem t hx), ?_⟩
      rw [if_neg]
      simp [h t (List.mem_cons_self t ts)]

lemma lastMatch_eq_some (p : Str → Bool) (ts : List Str) (t : Str)
    (h : lastMatch p ts = some t) : t ∈ ts ∧ p t = true := by
  induction ts with
  | nil => cases h
  | cons x xs ih =>
    rw [lastMatch] at h
    cases hlm : lastMatch p xs with
    | some y =>
      rw [hlm] at h
      have hy : y = t := by simpa using h
      subst hy
      obtain ⟨hmem, hp⟩ := ih hlm
      exact ⟨List.mem_cons_of_mem x hmem, hp⟩
    | none =>
      rw [hlm] at h
      by_cases hp : p x
      · rw [if_pos hp] at h
        have hx : x = t := by simpa using h
        subst hx
        exact ⟨List.mem_cons_self x xs, hp⟩
      · rw [if_neg hp] at h
        simp at h

/-- Starting with: `strStartsWith` holds on any extension of the pattern. -/
lemma strStartsWith_append (p t : Str) : strStartsWith (p ++ t) p = true := by
  induction p with
  | nil => cases t <;> rfl
  | cons c p ih => simpa [strStartsWith] using ih

/-- A string starting with a nonempty pattern starts with its first
character. -/
lemma strStartsWith_cons_head (s : Str) (p : Char) (ps : Str)
    (h : strStartsWith s (p :: ps) = true) : ∃ s', s = p :: s' := by
  cases s with
  | nil => simp [strStartsWith] at h
  | cons c s' =>
    by_cases hc : c = p
    · subst hc
      exact ⟨s', rfl⟩
    · simp [strStartsWith, hc] at h

/-- Trimming a string whose first character is not whitespace yields the
empty string or a string with the same first character. -/
lemma trimStr_head_of_not_ws (c : Char) (t : Str) (hc : isWS c = false) :
    trimStr (c :: t) = [] ∨ ∃ t', trimStr (c :: t) = c :: t' := by
  unfold trimStr
  rw [List.dropWhile_cons, if_neg (by simp [hc])]
  have hpre := List.rdropWhile_prefix isWS (c :: t)
  cases hres : List.rdropWhile isWS (c :: t) with
  | nil => exact Or.inl rfl
  | cons d t' =>
    right
    rw [hres] at hpre
    obtain ⟨u, hu⟩ := hpre
    have hd : d = c := by
      have := congrArg List.head? hu
      simpa using this
    exact ⟨t', by rw [hd]⟩

/-- A line whose trimmed form starts with the `"%$"` token marker cannot
start with the `"\input{"` include marker. -/
lemma not_input_of_trim_token (line name : Str)
    (hline : trimStr line = tokenMarker ++ name) :
    strStartsWith line inputMarker = false := by
  by_contra h
  rw [Bool.not_eq_false] at h
  rw [(by decide : inputMarker = '\\' :: "input\x7b".toList)] at h
  obtain ⟨s', hs⟩ := strStartsWith_cons_head line '\\' _ h
  subst hs
  rcases trimStr_head_of_not_ws '\\' s' (by decide) with h0 | ⟨t', ht⟩
  · rw [hline] at h0
    simp [tokenMarker] at h0
  · rw [hline] at ht
    rw [(by decide : (tokenMarker : Str) = '%' :: "$".toList)] at ht
    simp at ht

/-- If the fuel runs out or the pattern never occurs, the replace scan
returns the string unchanged; in particular a pattern-free string is
left untouched for every fuel. -/
lemma replaceAllAux_of_not_contains (pat repl : Str) (fuel : Nat) (s : Str)
    (hsub : containsSub pat s = false) :
    replaceAllAux pat repl fuel s = s := by
  induction fuel generalizing s with
  | zero => cases s <;> rfl
  | succ fuel ih =>
    cases s with
    | nil => rfl
    | cons c rest =>
      have hsplit : strStartsWith (c :: rest) pat = false ∧
          containsSub pat rest = false := by
        have : (strStartsWith (c :: rest) pat || containsSub pat rest) = false := hsub
        simpa using this
      rw [replaceAllAux, if_neg (by simp [hsplit.1]), ih rest hsplit.2]

/-- Stripping the leading `"%$"` marker: replacing `"%$"` in
`"%$" ++ name` yields `name` when `name` itself is free of the marker. -/
lemma replaceAll_token_strip (name : Str)
    (hsub : containsSub tokenMarker name = false) :
    replaceAll tokenMarker [] (tokenMarker ++ name) = name := by
  show replaceAllAux tokenMarker [] (tokenMarker ++ name).length (tokenMarker ++ name)
      = name
  have hlen : (tokenMarker ++ name).length = name.length + 1 + 1 := by
    simp [tokenMarker]
  rw [hlen]
  show replaceAllAux tokenMarker [] (name.length + 1 + 1) ('%' :: '$' :: name) = name
  rw [replaceAllAux,
    if_pos ⟨by decide, strStartsWith_append tokenMarker name⟩]
  show replaceAllAux tokenMarker [] (name.length + 1) name = name
  exact replaceAllAux_of_not_contains tokenMarker [] (name.length + 1) name hsub

/-- On a line whose trimmed form is the token marker followed by a
marker-free, trimmed name, `token_name_from_line` returns that name. -/
lemma token_name_of_marker (line name : Str)
    (hline : trimStr line = tokenMarker ++ name)
    (hsub : containsSub tokenMarker name = false)
    (htrim : trimStr name = name) :
    token_name_from_line line = some name := by
  unfold token_name_from_line
  rw [hline, replaceAll_token_strip name hsub, htrim,
    if_pos (strStartsWith_append tokenMarker name)]

/-! ## Claims -/

/-- C1: merging two `InvoicePosition`s with equal text and unit via the
`AddAssign` merge yields amount `a₁ + a₂` and price
`(a₁p₁ + a₂p₂)/(a₁ + a₂)` (the quantity-weighted average), with text and
unit unchanged, whenever `a₁ + a₂` is nonzero. -/
theorem InvoicePosition.add_assign_merge (a b : InvoicePosition)
    (htext : a.text = b.text) (hunit : a.unit = b.unit)
    (hsum : a.amount + b.amount ≠ 0) :
    InvoicePosition.add_assign a b =
      some { text := a.text
             amount := a.amount + b.amount
             price_per_item :=
               (a.amount * a.price_per_item + b.amount * b.price_per_item) /
                 (a.amount + b.amount)
             unit := a.unit } := by
  simp [InvoicePosition.add_assign, hunit, htext]

/-- Witness for C1 at a concrete pair: amounts 2 and 3 at prices 100 and
50 merge to amount 5 at price 70. -/
theorem InvoicePosition.add_assign_merge_witness :
    InvoicePosition.add_assign
        { text := "Consulting".toList, amount := 2, price_per_item := 100, unit := "h".toList }
        { text := "Consulting".toList, amount := 3, price_per_item := 50, unit := "h".toList } =
      some { text := "Consulting".toList, amount := 5, price_per_item := 70,
             unit := "h".toList } := by
  have h := InvoicePosition.add_assign_merge
    { text := "Consulting".toList, amount := 2, price_per_item := 100, unit := "h".toList }
    { text := "Consulting".toList, amount := 3, price_per_item := 50, unit := "h".toList }
    rfl rfl (by norm_num)
  rw [h]
  norm_num

/-- C2 counterexample: `WorklogRecord::net` multiplies the hours by
`rate.unwrap_or_default()`, which is 0 for a missing rate — a record with
no rate and 2 hours in a worklog whose fallback rate is the default 100
has `net() = 0`, not `2 × 100 = 200`. -/
theorem WorklogRecord.net_zero_cex :
    WorklogRecord.net
        { tags := [], start := 0, hours := 2, rate := none, message := "m".toList } = 0 ∧
    ({ tags := [], start := 0, hours := 2, rate := none,
        message := "m".toList } : WorklogRecord).hours * Worklog.new.rate = 200 ∧
    (0 : ℚ) ≠ 200 := by
  refine ⟨by simp [WorklogRecord.net], by norm_num [Worklog.new], by norm_num⟩

/-- C2 amended: `net()` uses only the record's own rate (`None` counts as
0); the `hours × (rate or fallback)` value is instead the net of the
`InvoicePosition` built from the record with the worklog's rate as
default. -/
theorem WorklogRecord.net_own_rate (r : WorklogRecord) (d : ℚ) :
    r.net = r.hours * r.rate.getD 0 ∧
    (InvoicePosition.from_worklog_record r d).net = r.hours * r.rate.getD d :=
  ⟨rfl, rfl⟩

/-- Witness for C2's amended net computation at concrete records: a rate
of its own is used, a missing rate contributes 0 to `net()` while the
position built from the record uses the fallback. -/
theorem WorklogRecord.net_own_rate_witness :
    WorklogRecord.net
        { tags := [], start := 0, hours := 3, rate := some 80, message := [] } = 240 ∧
    (InvoicePosition.from_worklog_record
        { tags := [], start := 0, hours := 3, rate := none, message := [] } 90).net
      = 270 :=
  ⟨((WorklogRecord.net_own_rate
      { tags := [], start := 0, hours := 3, rate := some 80, message := [] } 0).1).trans
        (by norm_num),
   ((WorklogRecord.net_own_rate
      { tags := [], start := 0, hours := 3, rate := none, message := [] } 90).2).trans
        (by norm_num)⟩

/-- C5 counterexample: parsing `"[default] Consulting"` keeps the space
after the marker, producing position text `" Consulting"` rather than
`"Consulting"`. -/
theorem RecipientTagInfo.from_default_space_cex :
    (RecipientTagInfo.fromStr ("[default] Consulting".toList)).position_text ≠
        "Consulting".toList ∧
    (RecipientTagInfo.fromStr ("[default] Consulting".toList)).position_text =
        " Consulting".toList := by
  decide

/-- C5 amended: `"[default] Consulting"` parses to
`{is_default := true, position_text := " Consulting"}` (only the literal
`"[default]"` is removed, the following space is kept), and `"Support"`
parses to `{is_default := false, position_text := "Support"}`. -/
theorem RecipientTagInfo.from_parse :
    RecipientTagInfo.fromStr ("[default] Consulting".toList) =
      { is_default := true, position_text := " Consulting".toList } ∧
    RecipientTagInfo.fromStr ("Support".toList) =
      { is_default := false, position_text := "Support".toList } := by
  decide

/-- C7: merging positions with differing text or unit trips the
assertion (modelled as `none`, the fatal abort); with equal text and unit
the assertion never fires and the merge produces a value. -/
theorem InvoicePosition.add_assign_assert (a b : InvoicePosition) :
    ((a.text ≠ b.text ∨ a.unit ≠ b.unit) → InvoicePosition.add_assign a b = none) ∧
    (a.text = b.text → a.unit = b.unit →
      (InvoicePosition.add_assign a b).isSome = true) := by
  constructor
  · intro h
    have hcond : ¬(a.unit = b.unit ∧ a.text = b.text) := by tauto
    simp [InvoicePosition.add_assign, hcond]
  · intro h1 h2
    simp [InvoicePosition.add_assign, h1, h2]

/-- Witness for C7: a concrete mismatched pair merges to the abort value,
and a concrete matched pair merges successfully. -/
theorem InvoicePosition.add_assign_assert_witness :
    InvoicePosition.add_assign
        { text := "A".toList, amount := 1, price_per_item := 1, unit := "h".toList }
        { text := "B".toList, amount := 1, price_per_item := 1, unit := "h".toList } = none ∧
    (InvoicePosition.add_assign
        { text := "A".toList, amount := 1, price_per_item := 1, unit := "h".toList }
        { text := "A".toList, amount := 1, price_per_item := 1, unit := "h".toList }).isSome
      = true :=
  ⟨(InvoicePosition.add_assign_assert _ _).1 (Or.inl (by decide)),
   (InvoicePosition.add_assign_assert _ _).2 rfl rfl⟩

/-- C10: `from_records_with_tag` builds the filtered worklog from
`Worklog::new()`, so its fallback rate is the hardcoded 100 regardless of
any rate previously set on the source worklog. -/
theorem Worklog.from_records_with_tag_rate (w : Worklog) (r : ℚ) (tag : Str) :
    ((w.set_rate r).from_records_with_tag tag).rate = 100 := by
  unfold Worklog.from_records_with_tag
  rw [foldl_add_record_rate]
  rfl

/-- C3: for every sequence of `add_record` calls starting from
`Worklog::new()`, the begin date is the minimum of the records' begin
dates and the end date the maximum of their end dates (the hypotheses
say every date is representable, i.e. lies between chrono's `MIN` and
`MAX`); the result is independent of the insertion order, and the empty
worklog carries the sentinel pair `(MAX, MIN)`. -/
theorem Worklog.range_minmax (rs : List WorklogRecord)
    (hb : ∀ r ∈ rs, r.begin_date ≤ dtMax)
    (he : ∀ r ∈ rs, dtMin ≤ r.end_date)
    (hne : rs ≠ []) :
    ((∃ r ∈ rs, (Worklog.ofRecords rs).begin_date = r.begin_date) ∧
       ∀ r ∈ rs, (Worklog.ofRecords rs).begin_date ≤ r.begin_date) ∧
    ((∃ r ∈ rs, (Worklog.ofRecords rs).end_date = r.end_date) ∧
       ∀ r ∈ rs, r.end_date ≤ (Worklog.ofRecords rs).end_date) ∧
    (∀ rs' : List WorklogRecord, rs.Perm rs' →
       (Worklog.ofRecords rs').begin_date = (Worklog.ofRecords rs).begin_date ∧
       (Worklog.ofRecords rs').end_date = (Worklog.ofRecords rs).end_date) ∧
    ((Worklog.ofRecords []).begin_date = dtMax ∧
       (Worklog.ofRecords []).end_date = dtMin) := by
  refine ⟨ofRecords_begin_spec rs hb hne, ofRecords_end_spec rs he hne, ?_, rfl, rfl⟩
  intro rs' hperm
  have hb' : ∀ r ∈ rs', r.begin_date ≤ dtMax := fun r hr => hb r (hperm.mem_iff.mpr hr)
  have he' : ∀ r ∈ rs', dtMin ≤ r.end_date := fun r hr => he r (hperm.mem_iff.mpr hr)
  have hne' : rs' ≠ [] := by
    intro hnil
    subst hnil
    exact hne hperm.eq_nil
  obtain ⟨⟨r1, hr1, heq1⟩, hlb1⟩ := ofRecords_begin_spec rs hb hne
  obtain ⟨⟨r1', hr1', heq1'⟩, hlb1'⟩ := ofRecords_begin_spec rs' hb' hne'
  obtain ⟨⟨r2, hr2, heq2⟩, hub2⟩ := ofRecords_end_spec rs he hne
  obtain ⟨⟨r2', hr2', heq2'⟩, hub2'⟩ := ofRecords_end_spec rs' he' hne'
  constructor
  · apply le_antisymm
    · rw [heq1]
      exact hlb1' r1 (hperm.mem_iff.mp hr1)
    · rw [heq1']
      exact hlb1 r1' (hperm.mem_iff.mpr hr1')
  · apply le_antisymm
    · rw [heq2']
      exact hub2 r2' (hperm.mem_iff.mpr hr2')
    · rw [heq2]
      exact hub2' r2 (hperm.mem_iff.mp hr2)

/-- Witness for C3 at a concrete two-record worklog (dates 100 and 0,
hours 1 and 2), extracting the sentinel-pair part. -/
theorem Worklog.range_minmax_witness :
    (Worklog.ofRecords []).begin_date = dtMax ∧
      (Worklog.ofRecords []).end_date = dtMin :=
  (Worklog.range_minmax
      [{ tags := [], start := 100, hours := 1, rate := none, message := [] },
       { tags := [], start := 0, hours := 2, rate := none, message := [] }]
      (by intro r hr; fin_cases hr <;> simp [WorklogRecord.begin_date, dtMax])
      (by
        intro r hr
        fin_cases hr <;>
          norm_num [WorklogRecord.end_date, WorklogRecord.begin_date, ratTrunc, dtMin])
      (by simp)).2.2.2

/-- C4 counterexample: a record type admits negative hours, and then the
invariant fails — adding the single record with start 0 and hours −1
yields begin date 0 and end date −3600. -/
theorem Worklog.range_invariant_cex :
    ¬ ((Worklog.ofRecords
          [{ tags := [], start := 0, hours := -1, rate := none, message := [] }]).begin_date ≤
        (Worklog.ofRecords
          [{ tags := [], start := 0, hours := -1, rate := none, message := [] }]).end_date) := by
  simp [Worklog.ofRecords, Worklog.add_record, Worklog.new, WorklogRecord.end_date,
    WorklogRecord.begin_date, ratTrunc, dtMax, dtMin]
  norm_num

/-- C4 amended: once at least one record has been added, the invariant
`begin_date ≤ end_date` holds provided every added record has nonnegative
hours (so that each record's own end date is at or after its begin
date); it does not hold for arbitrary hours values. -/
theorem Worklog.range_invariant (rs : List WorklogRecord)
    (hh : ∀ r ∈ rs, 0 ≤ r.hours) (hne : rs ≠ []) :
    (Worklog.ofRecords rs).begin_date ≤ (Worklog.ofRecords rs).end_date := by
  rcases List.exists_mem_of_ne_nil rs hne with ⟨r0, hr0⟩
  have h1 : (Worklog.ofRecords rs).begin_date ≤ r0.begin_date := by
    have hfold : (Worklog.ofRecords rs).begin_date =
        (rs.map WorklogRecord.begin_date).foldl (fun acc x => min x acc) dtMax :=
      foldl_add_record_begin rs Worklog.new
    rw [hfold]
    exact foldlMin_le_mem _ _ _ (List.mem_map_of_mem _ hr0)
  have h2 : r0.begin_date ≤ r0.end_date := by
    unfold WorklogRecord.end_date
    have hq : (0 : ℚ) ≤ 60 * 60 * r0.hours := by
      have := hh r0 hr0
      positivity
    have ht : (0 : Int) ≤ ratTrunc (60 * 60 * r0.hours) := by
      rw [ratTrunc, if_pos hq]
      exact Int.floor_nonneg.mpr hq
    omega
  have h3 : r0.end_date ≤ (Worklog.ofRecords rs).end_date := by
    have hfold : (Worklog.ofRecords rs).end_date =
        (rs.map WorklogRecord.end_date).foldl (fun acc x => max x acc) dtMin :=
      foldl_add_record_end rs Worklog.new
    rw [hfold]
    exact foldlMax_mem_le _ _ _ (List.mem_map_of_mem _ hr0)
  exact le_trans (le_trans h1 h2) h3

/-- Witness for C4's amended invariant at a concrete one-record
worklog. -/
theorem Worklog.range_invariant_witness :
    (Worklog.ofRecords
        [{ tags := [], start := 50, hours := 1, rate := none, message := [] }]).begin_date ≤
      (Worklog.ofRecords
        [{ tags := [], start := 50, hours := 1, rate := none, message := [] }]).end_date :=
  Worklog.range_invariant _ (by intro r hr; fin_cases hr <;> norm_num) (by simp)

/-- Witness for C10 at a concrete worklog whose rate was set to 55: the
filtered copy still carries rate 100. -/
theorem Worklog.from_records_with_tag_rate_witness :
    ((Worklog.new.set_rate 55).from_records_with_tag ("dev".toList)).rate = 100 :=
  Worklog.from_records_with_tag_rate Worklog.new 55 ("dev".toList)

/-- C6 counterexample: the key loop iterates a `HashSet`, so the key
depends on the tag iteration order, not only on the tag set — two
records with identical tag sets `\x7ba, b\x7d` (listed in the two possible
iteration orders) and identical messages, against a recipient whose map
contains both `a` and `b`, resolve to the keys `b` and `a`
respectively. -/
theorem groupKey_set_dependent_cex :
    ({ tags := ["a".toList, "b".toList], start := 0, hours := 1, rate := none,
        message := "m".toList } : WorklogRecord).tags.toFinset =
      ({ tags := ["b".toList, "a".toList], start := 0, hours := 1, rate := none,
          message := "m".toList } : WorklogRecord).tags.toFinset ∧
    ({ tags := ["a".toList, "b".toList], start := 0, hours := 1, rate := none,
        message := "m".toList } : WorklogRecord).message =
      ({ tags := ["b".toList, "a".toList], start := 0, hours := 1, rate := none,
          message := "m".toList } : WorklogRecord).message ∧
    groupKey
        { name := "r".toList, default_rate := none,
          tags := [("a".toList, { is_default := false, position_text := "A".toList }),
                   ("b".toList, { is_default := false, position_text := "B".toList })] }
        { tags := ["a".toList, "b".toList], start := 0, hours := 1, rate := none,
          message := "m".toList } ≠
      groupKey
        { name := "r".toList, default_rate := none,
          tags := [("a".toList, { is_default := false, position_text := "A".toList }),
                   ("b".toList, { is_default := false, position_text := "B".toList })] }
        { tags := ["b".toList, "a".toList], start := 0, hours := 1, rate := none,
          message := "m".toList } := by
  refine ⟨by decide, rfl, by decide⟩

/-- C6 amended: the grouping key is a function of the record's tag set,
its message and the recipient's tag map — independent of the tag
iteration order and hence of the record's position in the input —
whenever at most one of the record's tags occurs in the recipient's tag
map; with two or more matching tags the key is the last match in the
unspecified set-iteration order. -/
theorem groupKey_deterministic (r : Recipient) (rec1 rec2 : WorklogRecord)
    (hset : rec1.tags.toFinset = rec2.tags.toFinset)
    (hmsg : rec1.message = rec2.message)
    (huniq : ∀ t1 ∈ rec1.tags, ∀ t2 ∈ rec1.tags,
      (List.lookup t1 r.tags).isSome = true → (List.lookup t2 r.tags).isSome = true →
        t1 = t2) :
    groupKey r rec1 = groupKey r rec2 := by
  have hmem : ∀ t : Str, t ∈ rec1.tags ↔ t ∈ rec2.tags := by
    intro t
    rw [← List.mem_toFinset, hset, List.mem_toFinset]
  unfold groupKey
  rw [groupKeyLoop_eq_lastMatch, groupKeyLoop_eq_lastMatch, hmsg]
  cases h1 : lastMatch (fun t => (List.lookup t r.tags).isSome) rec1.tags with
  | none =>
    have h2 : lastMatch (fun t => (List.lookup t r.tags).isSome) rec2.tags = none := by
      rw [lastMatch_eq_none_iff] at h1 ⊢
      intro t ht
      exact h1 t ((hmem t).mpr ht)
    rw [h2]
  | some t1 =>
    obtain ⟨ht1, hpt1⟩ := lastMatch_eq_some _ _ _ h1
    cases h2 : lastMatch (fun t => (List.lookup t r.tags).isSome) rec2.tags with
    | none =>
      rw [lastMatch_eq_none_iff] at h2
      rw [h2 t1 ((hmem t1).mp ht1)] at hpt1
      cases hpt1
    | some t2 =>
      obtain ⟨ht2, hpt2⟩ := lastMatch_eq_some _ _ _ h2
      rw [huniq t1 ht1 t2 ((hmem t2).mpr ht2) hpt1 hpt2]

/-- Witness for C6's amended determinism: against a recipient knowing
only the tag `a`, the tag orders `[x, a]` and `[a, x]` give the same
key. -/
theorem groupKey_deterministic_witness :
    groupKey
        { name := "r".toList, default_rate := none,
          tags := [("a".toList, { is_default := false, position_text := "A".toList })] }
        { tags := ["x".toList, "a".toList], start := 0, hours := 1, rate := none,
          message := "m".toList } =
      groupKey
        { name := "r".toList, default_rate := none,
          tags := [("a".toList, { is_default := false, position_text := "A".toList })] }
        { tags := ["a".toList, "x".toList], start := 0, hours := 1, rate := none,
          message := "m".toList } :=
  groupKey_deterministic _ _ _ (by decide) rfl (by decide)

/-- C8: a template line whose trimmed form is the `"%$"` marker followed
by a marker-free identifier is written to the output itself, immediately
followed by the output of the callback registered under that identifier;
with no registered callback only the line is written, and generation
continues without error. -/
theorem processLine_token_marker (fs : FileSys) (tokens : List (Str × List Str))
    (line name : Str)
    (hline : trimStr line = tokenMarker ++ name)
    (hsub : containsSub tokenMarker name = false)
    (htrim : trimStr name = name) :
    processLine fs tokens line = line :: (List.lookup name tokens).getD [] := by
  have hni : strStartsWith line inputMarker = false :=
    not_input_of_trim_token line name hline
  have htok : token_name_from_line line = some name :=
    token_name_of_marker line name hline hsub htrim
  unfold processLine
  rw [hni, htok]
  simp

/-- Witness for C8: a registered `FOO` marker emits the line then the
callback output; the same line against an empty registry emits only the
line. -/
theorem processLine_token_marker_witness :
    processLine (fun _ => none) [("FOO".toList, ["X".toList])] "  %$FOO".toList =
      ["  %$FOO".toList, "X".toList] ∧
    processLine (fun _ => none) [] "  %$FOO".toList = ["  %$FOO".toList] := by
  constructor
  · rw [processLine_token_marker (fun _ => none) [("FOO".toList, ["X".toList])]
      ("  %$FOO".toList) ("FOO".toList) (by decide) (by decide) (by decide)]
    decide
  · rw [processLine_token_marker (fun _ => none) []
      ("  %$FOO".toList) ("FOO".toList) (by decide) (by decide) (by decide)]
    decide

/-- C9: a template line starting with `"\input\x7b"` is not itself
emitted; if the named secondary template can be read its lines are
emitted verbatim in its place, and if it cannot be read nothing is
emitted for the line and generation continues. -/
theorem processLine_include (fs : FileSys) (tokens : List (Str × List Str))
    (line : Str)
    (h : strStartsWith line inputMarker = true) :
    (∀ ls : List Str,
        fs (templatePath
            (replaceAll ("\x7d".toList) [] (replaceAll inputMarker [] line))) = some ls →
          processLine fs tokens line = ls) ∧
    (fs (templatePath
          (replaceAll ("\x7d".toList) [] (replaceAll inputMarker [] line))) = none →
        processLine fs tokens line = []) := by
  constructor
  · intro ls hls
    unfold processLine
    rw [h, if_pos rfl]
    unfold inline_input
    rw [hls]
  · intro hnone
    unfold processLine
    rw [h, if_pos rfl]
    unfold inline_input
    rw [hnone]

/-- Witness for C9: including `foo` splices the lines of
`templates/foo.tex` when the file exists, and emits nothing when no file
can be read. -/
theorem processLine_include_witness :
    processLine
        (fun s => if s = templatePath ("foo".toList) then some ["A".toList] else none)
        [] "\\input\x7bfoo\x7d".toList = ["A".toList] ∧
    processLine (fun _ => none) [] "\\input\x7bfoo\x7d".toList = [] :=
  ⟨(processLine_include
      (fun s => if s = templatePath ("foo".toList) then some ["A".toList] else none)
      [] "\\input\x7bfoo\x7d".toList (by decide)).1 ["A".toList] (by decide),
   (processLine_include (fun _ => none) [] "\\input\x7bfoo\x7d".toList (by decide)).2
      rfl⟩

end Invoicer
